import Mathlib

/-!
Verification of the heuristic text-metrics pipeline (ffa-lab-9).

Shallow embedding conventions:
* Python `float` arithmetic is modelled by exact rationals (`ℚ`); every
  formula in the source is a ratio of small integers, so the rational value
  is the intended value of the computation.
* Python `round(x, n)` is modelled by `roundTo n` (round half up at the
  n-th decimal; no value in any proof below sits on a tie).
* Python strings are Lean `String`s; the regexes of the source
  (`WORD_RE`, the sentence splitter) are hand-compiled into recursive
  scanners over `List Char` with the same ASCII character classes.
* Python dicts with insertion order are association lists; Python sets are
  duplicate-free lists (all uses below are order-independent).
-/

namespace FfaLab

/-- Python `round(q, n)` on our rational model: half rounded up. -/
def roundTo (n : Nat) (q : ℚ) : ℚ :=
  (⌊q * (10 ^ n : ℚ) + 1/2⌋ : ℚ) / (10 ^ n : ℚ)

def roundTo2 (q : ℚ) : ℚ := roundTo 2 q

def roundTo3 (q : ℚ) : ℚ := roundTo 3 q

/-- Character class of `WORD_RE`'s atoms: `[A-Za-z0-9]` (ASCII). -/
def isWordChar (c : Char) : Bool := c.isAlpha || c.isDigit

/-- ASCII whitespace recognised by the regex `\s`: space, tab, newline,
carriage return, vertical tab, form feed. -/
def isWs (c : Char) : Bool :=
  c = ' ' || c = '\t' || c = '\n' || c = '\r' || c = '\x0b' || c = '\x0c'

/-- Maximal run of word characters at the head of the list
(the greedy `[A-Za-z0-9]+`). -/
def takeRun : List Char → List Char × List Char
  | [] => ([], [])
  | c :: cs =>
    if isWordChar c then
      let p := takeRun cs
      (c :: p.1, p.2)
    else ([], c :: cs)

/-- Greedy extension step of `WORD_RE`: `(?:['-][A-Za-z0-9]+)*`.
`fuel` bounds the recursion; callers pass at least the length of the
remaining input, which suffices because every step consumes two or more
characters. -/
def extendTok (fuel : Nat) (acc : List Char) (cs : List Char) : List Char × List Char :=
  match fuel with
  | 0 => (acc, cs)
  | fuel + 1 =>
    match cs with
    | sep :: c2 :: rest =>
      if (sep = '\'' || sep = '-') && isWordChar c2 then
        let p := takeRun (c2 :: rest)
        extendTok fuel (acc ++ sep :: p.1) p.2
      else (acc, cs)
    | _ => (acc, cs)

/-- Left-to-right scan of `WORD_RE.findall`. `fuel` bounds the recursion;
every recursive call consumes at least one input character. -/
def scanToks (fuel : Nat) (cs : List Char) : List (List Char) :=
  match fuel with
  | 0 => []
  | fuel + 1 =>
    match cs with
    | [] => []
    | c :: rest =>
      if isWordChar c then
        let p := takeRun (c :: rest)
        let q := extendTok fuel p.1 p.2
        q.1 :: scanToks fuel q.2
      else scanToks fuel rest

/-- `WORD_RE.findall(s)`: word tokens, original case. -/
def word_tokens (s : String) : List String :=
  (scanToks s.data.length s.data).map fun cs => String.mk cs

/-- Python `str.lower()` (ASCII range, which is all the code relies on). -/
def lower (s : String) : String := String.mk (s.data.map Char.toLower)

/-- `tokens(s)` of chapter_emotion_arc.py / chapter_lexical_diversity.py:
lower-cased word tokens. -/
def tokens (s : String) : List String := (word_tokens s).map lower

/-- `text.replace("\r\n","\n").replace("\r","\n")`. -/
def normNewlines : List Char → List Char
  | [] => []
  | '\r' :: '\n' :: cs => '\n' :: normNewlines cs
  | '\r' :: cs => '\n' :: normNewlines cs
  | c :: cs => c :: normNewlines cs

/-- Python `str.strip()`. -/
def stripChars (cs : List Char) : List Char :=
  ((cs.dropWhile isWs).reverse.dropWhile isWs).reverse

def strip (s : String) : String := String.mk (stripChars s.data)

/-- `re.sub(r"\s+", " ", ·)`: collapse every whitespace run to one space
(emitted at the end of the run). -/
def collapseWs : List Char → List Char
  | [] => []
  | [c] => if isWs c then [' '] else [c]
  | c :: c2 :: cs =>
    if isWs c then
      if isWs c2 then collapseWs (c2 :: cs)
      else ' ' :: collapseWs (c2 :: cs)
    else c :: collapseWs (c2 :: cs)

/-- `re.split(r'(?<=[.!?])\s+', ·)` on whitespace-collapsed text, where
every whitespace run is a single space. `acc` is the current piece,
reversed. -/
def splitSents : List Char → List Char → List (List Char)
  | [], acc => [acc.reverse]
  | [c], acc => [(c :: acc).reverse]
  | c :: c2 :: cs, acc =>
    if (c = '.' || c = '!' || c = '?') && c2 = ' ' then
      (c :: acc).reverse :: splitSents cs []
    else splitSents (c2 :: cs) (c :: acc)

/-- `sentences(text)` of chapter_emotion_arc.py (and, modulo the newline
normalisation its caller already performed, of
chapter_continuity_consistency.py): normalise newlines, strip, collapse
whitespace, split after sentence-terminal punctuation followed by
whitespace, strip pieces, drop empties. -/
def sentences (text : String) : List String :=
  let t := collapseWs (stripChars (normNewlines text.data))
  ((splitSents t []).map fun cs => String.mk (stripChars cs)).filter fun s => s ≠ ""

/-! ## Rolling aggregator (chapter_emotion_arc.py, lines 84-95) -/

/-- One iteration of the `for v in values` loop of `rolling`: push `v` on
the deque and the running sum, pop the left end when the deque exceeds the
window, emit the current mean. State is `(dq, run, out)`. -/
def rollStep (window : Nat) (st : List ℚ × ℚ × List ℚ) (v : ℚ) : List ℚ × ℚ × List ℚ :=
  let dq := st.1 ++ [v]
  let run := st.2.1 + v
  if window < dq.length then
    let dq2 := dq.tail
    let run2 := run - dq.headD 0
    (dq2, run2, st.2.2 ++ [run2 / (dq2.length : ℚ)])
  else
    (dq, run, st.2.2 ++ [run / (dq.length : ℚ)])

/-- `rolling(values, window)`: identity for `window <= 1`, otherwise the
deque loop. -/
def rolling (values : List ℚ) (window : Nat) : List ℚ :=
  if window ≤ 1 then values
  else (values.foldl (rollStep window) ([], 0, [])).2.2

/-- The spec's description of position `i` of the rolling output: the
arithmetic mean of the last `min(w, i+1)` input values ending at `i`. -/
def meanTail (s : List ℚ) (w : Nat) (i : Nat) : ℚ :=
  let seg := (s.take (i + 1)).drop (i + 1 - w)
  seg.sum / (seg.length : ℚ)

/-! ## Emotion arc (chapter_emotion_arc.py) -/

/-- The `POS` lexicon (line 51). -/
def POS : List String :=
  ["joy","love","glad","hope","delight","cheer","smile","trust","safe","calm",
   "relief","brave","confident","win","happy","pleased","laugh","grin","joyful"]

/-- The `NEG` lexicon (line 52). -/
def NEG : List String :=
  ["sad","angry","anger","fear","afraid","terror","panic","hurt","bleed","pain",
   "cry","fail","lose","danger","threat","sorrow","gloom","mourn","tears","grief","lonely"]

/-- The `EMO` emotion-category table (lines 54-63), in dict insertion order. -/
def EMO : List (String × List String) :=
  [("joy", ["joy","delight","happy","glad","smile","cheer","pleased","laugh","grin"]),
   ("sadness", ["sad","sorrow","gloom","mourn","cry","tears","grief","lonely"]),
   ("anger", ["anger","angry","rage","fury","irritate","annoyed","hate","jealous"]),
   ("fear", ["fear","afraid","scare","terror","panic","anxiety","dread","threat"]),
   ("trust", ["trust","safe","secure","faith","reliance","certain"]),
   ("disgust", ["disgust","gross","nausea","repulse","vile","filthy","revolt"]),
   ("surprise", ["surprise","shock","startle","astonish","sudden","unexpected"]),
   ("anticipation", ["anticipate","eager","expect","await","hope","yearn","ready"])]

/-- `sum(1 for w in toks if w in lex)`. -/
def countIn (toks : List String) (lex : List String) : Nat :=
  (toks.filter fun w => lex.contains w).length

structure SentenceScore where
  index : Nat
  text : String
  valence_raw : Int
  emotions : List (String × Nat)
deriving Repr, DecidableEq

/-- `score_sentence(i, s)` (lines 78-82). -/
def score_sentence (i : Nat) (s : String) : SentenceScore :=
  let toks := tokens s
  { index := i
    text := s
    valence_raw := (countIn toks POS : Int) - (countIn toks NEG : Int)
    emotions := EMO.map fun kv => (kv.1, countIn toks kv.2) }

/-- Python `Counter[k] += v`: update an existing key in place, otherwise
insert the key at the end. -/
def counterAdd (c : List (String × Nat)) (k : String) (v : Nat) : List (String × Nat) :=
  if c.any fun p => p.1 = k then
    c.map fun p => if p.1 = k then (p.1, p.2 + v) else p
  else c ++ [(k, v)]

/-- Dict lookup with the key known present (`sc.emotions[k]`); defaults to 0. -/
def lookupCount (c : List (String × Nat)) (k : String) : Nat :=
  ((c.find? fun p => p.1 = k).map Prod.snd).getD 0

/-- Stable descending insertion by count: the inserted element precedes the
first element whose count is at most its own.  Folding from the right gives
exactly Python's stable `sorted(..., reverse-by-count)` used by
`Counter.most_common`. -/
def insertByCount (x : String × Nat) : List (String × Nat) → List (String × Nat)
  | [] => [x]
  | y :: ys => if y.2 ≤ x.2 then x :: y :: ys else y :: insertByCount x ys

def sortByCountDesc (l : List (String × Nat)) : List (String × Nat) :=
  l.foldr insertByCount []

/-- `Counter.most_common(n)`: stable sort by count, descending, first `n`. -/
def most_common (c : List (String × Nat)) (n : Nat) : List (String × Nat) :=
  (sortByCountDesc c).take n

/-- The `emo_totals` Counter of `analyze` (lines 104-109): every sentence
contributes its eight per-category counts, in `EMO` order; a key is
inserted even when the added count is zero (Python's `c[k] += 0` still
materialises the key). -/
def emoTotals (scores : List SentenceScore) : List (String × Nat) :=
  scores.foldl (fun c sc => sc.emotions.foldl (fun c2 kv => counterAdd c2 kv.1 kv.2) c) []

/-- The `emo_series` dict of `analyze` (lines 105-108): one series per
category, position `i` holding sentence `i`'s count for that category. -/
def emoSeries (scores : List SentenceScore) : List (String × List ℚ) :=
  EMO.map fun kv => (kv.1, scores.map fun sc => (lookupCount sc.emotions kv.1 : ℚ))

structure ArcSummary where
  sentences : Nat
  avg_valence : ℚ
  top_emotions : List String
deriving Repr, DecidableEq

structure ArcResult where
  scores : List SentenceScore
  val_roll : List ℚ
  emo_roll : List (String × List ℚ)
  summary : ArcSummary
deriving Repr, DecidableEq

/-- `analyze(text, window)` of chapter_emotion_arc.py (lines 97-114). -/
def analyzeArc (text : String) (window : Nat) : ArcResult :=
  let sents := sentences text
  let scores := sents.enum.map fun p => score_sentence p.1 p.2
  let val_raw := scores.map fun sc => (sc.valence_raw : ℚ)
  let val_roll := rolling val_raw window
  let emo_roll := (emoSeries scores).map fun kv => (kv.1, rolling kv.2 window)
  let top := (most_common (emoTotals scores) 3).map Prod.fst
  { scores := scores
    val_roll := val_roll
    emo_roll := emo_roll
    summary :=
      { sentences := sents.length
        avg_valence :=
          if val_raw ≠ [] then roundTo2 (val_raw.sum / (val_raw.length : ℚ)) else 0
        top_emotions := top } }

/-! ## Lexical diversity (chapter_lexical_diversity.py) -/

/-- `Counter(words)` as an insertion-ordered association list. -/
def wordCounter (words : List String) : List (String × Nat) :=
  words.foldl (fun c w => counterAdd c w 1) []

/-- `type_token_stats(words)` (lines 61-67): `(N, V, V1, V2)`. -/
def type_token_stats (words : List String) : Nat × Nat × Nat × Nat :=
  let c := wordCounter words
  (words.length, c.length,
   (c.filter fun p => p.2 = 1).length,
   (c.filter fun p => p.2 = 2).length)

/-- `safe_div(a, b)` (lines 69-70). -/
def safe_div (a b : ℚ) : ℚ := if b ≠ 0 then a / b else 0

/-- The `TTR` field of `analyze` (lines 121-145): `round(safe_div(V, N), 3)`
over the lower-cased word tokens of the text. -/
def TTR_reported (text : String) : ℚ :=
  let words := tokens text
  let s := type_token_stats words
  roundTo3 (safe_div (s.2.1 : ℚ) (s.1 : ℚ))

/-- The MTLD threshold, 0.72. -/
def mtldThreshold : ℚ := 72/100

structure MtldState where
  factors : Nat
  types : List String
  count : Nat
  lastTtr : ℚ
deriving Repr, DecidableEq

/-- One iteration of the `for w in words` loop of `approx_mtld`
(lines 100-107): extend the running segment, compute its TTR, and reset the
segment (counting one factor) when the TTR falls to the threshold.
`lastTtr` is the Python variable `ttr`, last assigned in the loop. -/
def mtldStep (st : MtldState) (w : String) : MtldState :=
  let count := st.count + 1
  let types := if st.types.contains w then st.types else st.types ++ [w]
  let ttr := (types.length : ℚ) / (count : ℚ)
  if ttr ≤ mtldThreshold then
    { factors := st.factors + 1, types := [], count := 0, lastTtr := ttr }
  else
    { factors := st.factors, types := types, count := count, lastTtr := ttr }

def mtldInit : MtldState := { factors := 0, types := [], count := 0, lastTtr := 0 }

/-- The end-of-loop fractional partial-factor contribution of `approx_mtld`
(lines 109-112): `(ttr - threshold) / (1 - threshold)` when a partial
segment remains, nothing otherwise. -/
def mtld_partial_factor (words : List String) : ℚ :=
  let st := words.foldl mtldStep mtldInit
  if 0 < st.count then (st.lastTtr - mtldThreshold) / (1 - mtldThreshold) else 0

/-- `approx_mtld(words)` (lines 93-113). -/
def approx_mtld (words : List String) : ℚ :=
  if words = [] then 0
  else
    let st := words.foldl mtldStep mtldInit
    let factors := (st.factors : ℚ) + mtld_partial_factor words
    (words.length : ℚ) / max factors (1/1000000000)

/-! ## Readability (examples/writing_analysis/chapter_style_readability.py,
lines 114-132) -/

/-- `flesch_reading_ease(total_words, total_sentences, total_syllables)`. -/
def flesch_reading_ease (total_words total_sentences total_syllables : Nat) : ℚ :=
  if total_sentences = 0 ∨ total_words = 0 then 0
  else
    roundTo2 (206835/1000
      - 1015/1000 * ((total_words : ℚ) / (total_sentences : ℚ))
      - 846/10 * ((total_syllables : ℚ) / (total_words : ℚ)))

/-- `flesch_kincaid_grade(total_words, total_sentences, total_syllables)`. -/
def flesch_kincaid_grade (total_words total_sentences total_syllables : Nat) : ℚ :=
  if total_sentences = 0 ∨ total_words = 0 then 0
  else
    roundTo2 (39/100 * ((total_words : ℚ) / (total_sentences : ℚ))
      + 118/10 * ((total_syllables : ℚ) / (total_words : ℚ))
      - 1559/100)

/-- `gunning_fog_index(total_words, total_sentences, complex_word_count)`. -/
def gunning_fog_index (total_words total_sentences complex_word_count : Nat) : ℚ :=
  if total_sentences = 0 ∨ total_words = 0 then 0
  else
    roundTo2 (4/10 * ((total_words : ℚ) / (total_sentences : ℚ)
      + 100 * ((complex_word_count : ℚ) / (total_words : ℚ))))

/-! ## Beat detection (examples/writing_analysis/chapter_beats_detection.py) -/

/-- `in_window(pos, lo, hi)` (lines 66-73): triangular position weight,
0.5 outside the window, otherwise `max(0.1, 1 - d)` where `d` is the
distance from the window center normalised by the half-width (floored at
1e-9). -/
def in_window (pos lo hi : ℚ) : ℚ :=
  if pos < lo ∨ hi < pos then 1/2
  else
    let center := (lo + hi) / 2
    let d := |pos - center| / max (1/1000000000) ((hi - lo) / 2)
    max (1/10) (1 - d)

/-- Line 79 of `score_sentence`: the cue-hit count of a sentence against
one beat's cue-word set. -/
def cue_hits (cue_words : List String) (s : String) : Nat :=
  countIn (tokens s) cue_words

/-- Line 83 of `score_sentence`: `sc = cue_score * (0.6 + 0.4*pos_weight)`. -/
def sentence_beat_score (cue_score : Nat) (pos_weight : ℚ) : ℚ :=
  (cue_score : ℚ) * (6/10 + 4/10 * pos_weight)

/-- One beat's entry of `score_sentence(idx, s, pos)` (lines 75-86): no
entry when the sentence has no cue hits, otherwise the hit with the score
rounded to 3 decimals. -/
def score_for_beat (cue_words : List String) (s : String) (pos lo hi : ℚ) : Option ℚ :=
  let c := cue_hits cue_words s
  if c = 0 then none
  else some (roundTo3 (sentence_beat_score c (in_window pos lo hi)))

/-! ## Continuity (chapter_continuity_consistency.py) -/

/-- Python set-add on a duplicate-free list. -/
def setAdd (l : List String) (x : String) : List String :=
  if l.contains x then l else l ++ [x]

def dedupKeepFirst (l : List String) : List String := l.foldl setAdd []

/-- `canon[k].add(a)` on the `defaultdict(set)` of `load_canon`. -/
def canonAdd (c : List (String × List String)) (k a : String) : List (String × List String) :=
  if c.any fun p => p.1 = k then
    c.map fun p => if p.1 = k then (p.1, setAdd p.2 a) else p
  else c ++ [(k, [a])]

/-- Split a character list on `,` (Python `str.split(",")`). -/
def splitOnComma : List Char → List Char → List (List Char)
  | [], acc => [acc.reverse]
  | c :: cs, acc =>
    if c = ',' then acc.reverse :: splitOnComma cs []
    else splitOnComma cs (c :: acc)

/-- `load_canon("", "", inline_names)` (lines 65-103) restricted to the
inline-names source: CSV and JSON paths are taken empty, so only the
`inline_names.split(",")` loop and the final lowercase-normalisation step
(line 102, `set(list(v) + [x.lower() for x in v])`) run.  A CSV cell or a
JSON entry without aliases feeds the same `canon[nm].add(nm)` step. -/
def load_canon (inline_names : String) : List (String × List String) :=
  let parts := ((splitOnComma inline_names.data []).map fun p =>
    strip (String.mk p)).filter fun nm => nm ≠ ""
  let canon := parts.foldl (fun c nm => canonAdd c nm nm) []
  canon.map fun p => (p.1, dedupKeepFirst (p.2 ++ p.2.map lower))

/-- `\w` of the phrase regex (ASCII portion). -/
def isWordCharW (c : Char) : Bool := isWordChar c || c = '_'

/-- A word boundary of `\b` at position `i` of `t`: the word-character
status changes between `t[i-1]` and `t[i]` (positions off either end count
as non-word). -/
def boundaryAt (t : List Char) (i : Nat) : Bool :=
  let before := if h : 0 < i ∧ i - 1 < t.length then isWordCharW (t.get ⟨i - 1, h.2⟩) else false
  let after := if h : i < t.length then isWordCharW (t.get ⟨i, h⟩) else false
  before != after

/-- `len(re.compile(rf"\b{re.escape(a)}\b", re.IGNORECASE).findall(text))`
for a multi-word alias (line 299-300): the number of positions where the
lower-cased phrase occurs between word boundaries.  Word-boundary-delimited
phrase occurrences cannot overlap, so counting positions agrees with
`findall`'s left-to-right scan. -/
def phrase_count (text a : String) : Nat :=
  let t := text.data.map Char.toLower
  let p := a.data.map Char.toLower
  ((List.range (t.length + 1)).filter fun i =>
    (t.drop i).take p.length = p && boundaryAt t i && boundaryAt t (i + p.length)).length

/-- The per-alias count of `analyze_continuity` (lines 296-302): phrase
count for multi-word aliases, case-insensitive token count otherwise. -/
def alias_count (text_n : String) (lows : List String) (a : String) : Nat :=
  if (strip a).data.contains ' ' then phrase_count text_n a
  else lows.count (lower a)

/-- The `canonical_matches` dict of `analyze_continuity` (lines 286-307):
per canonical entry, the sum of its aliases' counts, keeping only entries
with a positive total. -/
def canonical_matches (text : String) (canon : List (String × List String)) :
    List (String × Nat) :=
  let text_n := String.mk (normNewlines text.data)
  let lows := (word_tokens text_n).map lower
  (canon.map fun p =>
    (p.1, ((p.2.filter fun a => a ≠ "").map (alias_count text_n lows)).sum)).filter
    fun q => 0 < q.2

/-! ## Fuzzy variants (difflib.SequenceMatcher with no junk, plus
probable_variants, lines 108-130) -/

/-- Length of the common prefix of two character lists. -/
def commonRun : List Char → List Char → Nat
  | a :: as, b :: bs => if a = b then commonRun as bs + 1 else 0
  | _, _ => 0

/-- `SequenceMatcher.find_longest_match` over whole sequences, no junk:
the longest common contiguous block, and among equally long blocks the one
starting earliest in `a`, then earliest in `b`.  Returns `(i, j, size)`. -/
def flmBest (a b : List Char) : Nat × Nat × Nat :=
  (List.range a.length).foldl (fun best i =>
    (List.range b.length).foldl (fun best2 j =>
      let k := commonRun (a.drop i) (b.drop j)
      if best2.2.2 < k then (i, j, k) else best2) best) (0, 0, 0)

/-- Total size of `SequenceMatcher.get_matching_blocks`: recursively take
the longest match and recurse on the pieces to its left and right.  `fuel`
bounds the recursion; both pieces are strictly shorter, so the combined
length suffices. -/
def matchedTotal : Nat → List Char → List Char → Nat
  | 0, _, _ => 0
  | fuel + 1, a, b =>
    let m := flmBest a b
    if m.2.2 = 0 then 0
    else
      matchedTotal fuel (a.take m.1) (b.take m.2.1) + m.2.2 +
        matchedTotal fuel (a.drop (m.1 + m.2.2)) (b.drop (m.2.1 + m.2.2))

/-- `difflib.SequenceMatcher(None, a, b).ratio()`: `2*M/T`, or 1.0 when
both strings are empty. -/
def similarity (a b : String) : ℚ :=
  let T := a.data.length + b.data.length
  if T = 0 then 1
  else 2 * (matchedTotal (T + 1) a.data b.data : ℚ) / (T : ℚ)

/-- Python string `<`: lexicographic comparison by code point. -/
def charListLt : List Char → List Char → Bool
  | [], [] => false
  | [], _ :: _ => true
  | _ :: _, [] => false
  | a :: as2, b :: bs => if a = b then charListLt as2 bs else decide (a.toNat < b.toNat)

def strLt (a b : String) : Bool := charListLt a.data b.data

/-- Ascending insertion for Python `sorted` over distinct strings. -/
def insertAsc (x : String) : List String → List String
  | [] => [x]
  | y :: ys => if strLt x y then x :: y :: ys else y :: insertAsc x ys

def sortAsc (l : List String) : List String := l.foldr insertAsc []

/-- `t[0].lower()` of a (nonempty) token. -/
def firstLower (t : String) : Char := (t.data.headD ' ').toLower

/-- The comparisons of one bucket: every pair `(bucket[i], bucket[j])` with
`i < j`, skipping pairs equal up to case, keeping pairs whose similarity
reaches the cutoff, with the score rounded to 3 decimals. -/
def bucketPairs (cutoff : ℚ) : List String → List (String × String × ℚ)
  | [] => []
  | a :: rest =>
    (rest.filterMap fun b =>
      if lower a = lower b then none
      else
        let score := similarity (lower a) (lower b)
        if cutoff ≤ score then some (a, b, roundTo3 score) else none) ++
      bucketPairs cutoff rest

/-- `probable_variants(tokens, min_len, cutoff)` (lines 108-130): sort the
distinct long-enough tokens, bucket them by lower-cased first letter
(buckets in order of first appearance), and compare within buckets. -/
def probable_variants (toks : List String) (min_len : Nat) (cutoff : ℚ) :
    List (String × String × ℚ) :=
  let uniq := sortAsc (dedupKeepFirst (toks.filter fun t => min_len ≤ t.data.length))
  let keys := (uniq.map fun t => String.mk [firstLower t]).foldl setAdd []
  (keys.map fun k =>
    bucketPairs cutoff (uniq.filter fun t => String.mk [firstLower t] = k)).flatten

/-- Line 310 of `analyze_continuity`: the capitalized length-3-or-more
tokens fed to `probable_variants`. -/
def proper_like (toks : List String) : List String :=
  toks.filter fun t => (t.data.headD ' ').isUpper && 3 ≤ t.data.length

/-- The `probable_variants` field of `analyze_continuity(text, canon)`
(lines 309-311): fuzzy pairs among the capitalized tokens of the
newline-normalised text, at cutoff 0.9. -/
def continuity_probable_variants (text : String) : List (String × String × ℚ) :=
  probable_variants (proper_like (word_tokens (String.mk (normNewlines text.data)))) 3 (9/10)

end FfaLab

/- Batteries marks the arithmetic of `Rat` irreducible; re-allow unfolding
so that concrete rational computations can be settled by `decide`. -/
unseal Rat.add Rat.mul Rat.inv Rat.sub Rat.ofScientific

namespace FfaLab

/-! ## Theorems -/

/-- A `mtldStep` always leaves a state whose open partial segment (if any)
has a running TTR strictly above the threshold: the step that would have
dropped it to the threshold resets the segment instead. -/
theorem mtldStep_ttr_inv (st : MtldState) (w : String) :
    0 < (mtldStep st w).count → mtldThreshold < (mtldStep st w).lastTtr := by
  simp only [mtldStep]
  split <;> split <;> intro h <;>
    first
      | exact absurd h (lt_irrefl 0)
      | exact lt_of_not_le (by assumption)

/-- The loop invariant of `approx_mtld`, propagated over the whole token
walk. -/
theorem mtld_fold_ttr (words : List String) (st : MtldState)
    (h : 0 < st.count → mtldThreshold < st.lastTtr) :
    0 < (words.foldl mtldStep st).count →
      mtldThreshold < (words.foldl mtldStep st).lastTtr := by
  induction words generalizing st with
  | nil => exact h
  | cons w ws ih => exact ih (mtldStep st w) (mtldStep_ttr_inv st w)

/-- Shared helper: the partial-factor contribution of `approx_mtld` is
never negative. -/
theorem mtld_partial_nonneg (words : List String) : 0 ≤ mtld_partial_factor words := by
  simp only [mtld_partial_factor]
  split
  · have httr := mtld_fold_ttr words mtldInit (by intro hc; exact absurd hc (by simp [mtldInit]))
      (by assumption)
    have hd : (0:ℚ) < 1 - mtldThreshold := by norm_num [mtldThreshold]
    exact le_of_lt (div_pos (by linarith) hd)
  · exact le_refl 0

/-- C2: the claim asserts a token list exists whose end-of-loop partial
factor contribution in `approx_mtld` is negative.  No such list exists:
whenever a partial segment remains open its running TTR strictly exceeds
the threshold (otherwise it would have been reset), so the contribution
`(ttr - 0.72) / (1 - 0.72)` is never negative. -/
theorem C2_counterexample : ¬ ∃ words : List String, mtld_partial_factor words < 0 := by
  rintro ⟨ws, hws⟩
  exact absurd (mtld_partial_nonneg ws) (not_le.mpr hws)

/-- C2 amended: the partial-factor contribution of `approx_mtld` is always
nonnegative, and it is strictly positive whenever the walk ends with a
nonempty partial segment (whose TTR then necessarily exceeds the 0.72
threshold after the last reset). -/
theorem C2_amended_mtld_nonneg (words : List String) :
    0 ≤ mtld_partial_factor words ∧
      (0 < (words.foldl mtldStep mtldInit).count → 0 < mtld_partial_factor words) := by
  refine ⟨mtld_partial_nonneg words, fun hc => ?_⟩
  have httr := mtld_fold_ttr words mtldInit (by intro h; exact absurd h (by simp [mtldInit])) hc
  have hd : (0:ℚ) < 1 - mtldThreshold := by norm_num [mtldThreshold]
  simp only [mtld_partial_factor]
  rw [if_pos hc]
  exact div_pos (by linarith) hd

/-- Witness for C2's amended theorem at the concrete token list `["a"]`,
whose walk ends with an open one-token segment of TTR 1. -/
theorem C2_amended_witness : 0 < mtld_partial_factor ["a"] :=
  (C2_amended_mtld_nonneg ["a"]).2 (by decide)

/-- C4: the three readability formulas each return exactly 0.0 whenever
the sentence count or the word count is zero (they are total functions of
the counts, so no exception can arise); the empty document is the instance
with all counts zero. -/
theorem C4_readability_zero_guard (w s syl cw : Nat) (h : s = 0 ∨ w = 0) :
    flesch_reading_ease w s syl = 0 ∧ flesch_kincaid_grade w s syl = 0 ∧
      gunning_fog_index w s cw = 0 := by
  unfold flesch_reading_ease flesch_kincaid_grade gunning_fog_index
  rw [if_pos h, if_pos h, if_pos h]
  exact ⟨rfl, rfl, rfl⟩

/-- Witness for C4 at the empty document: 0 sentences, 0 words,
0 syllables, 0 complex words. -/
theorem C4_readability_zero_guard_witness :
    flesch_reading_ease 0 0 0 = 0 ∧ flesch_kincaid_grade 0 0 0 = 0 ∧
      gunning_fog_index 0 0 0 = 0 :=
  C4_readability_zero_guard 0 0 0 0 (Or.inl rfl)

/-- C5: for every window of size at most 1 the rolling aggregator returns
the input series unchanged (the `window <= 1` branch of `rolling`). -/
theorem C5_rolling_identity (s : List ℚ) (w : Nat) (h : w ≤ 1) :
    rolling s w = s := by
  unfold rolling
  rw [if_pos h]

/-- Witness for C5 at a concrete series and window 1. -/
theorem C5_rolling_identity_witness : rolling [1, 2, 3] 1 = [1, 2, 3] :=
  C5_rolling_identity [1, 2, 3] 1 (Nat.le_refl 1)

/-- C1: the claim asserts that two capitalized tokens identical except for
a single-character edit — its example being "Thea" vs "Thia" — appear in
`probable_variants` at `analyze_continuity`'s cutoff 0.9.  They do not:
the SequenceMatcher ratio of "thea"/"thia" is 2*3/8 = 0.75, below the
cutoff, so the output for a text containing both tokens is empty. -/
theorem C1_counterexample :
    continuity_probable_variants "Thea met Thia." = [] := by decide

set_option maxRecDepth 4000 in
/-- C1 amended: a pair of capitalized single-edit tokens appears in the
probable-variants output exactly when its SequenceMatcher ratio reaches
the 0.9 cutoff.  A one-character deletion between 8- and 7-letter tokens
("Hermione"/"Hermion", ratio 14/15 ≈ 0.933) is reported; the claim's
4-letter substitution pair "Thea"/"Thia" (ratio 0.75) is not; and a pair
with different first letters ("Thea"/"John") is never compared, hence
never reported. -/
theorem C1_amended_fuzzy_variants :
    continuity_probable_variants "Hermione met Hermion." =
      [("Hermion", "Hermione", 933/1000)] ∧
    continuity_probable_variants "Thea met Thia." = [] ∧
    continuity_probable_variants "Thea met John." = [] := by
  refine ⟨?_, by decide, by decide⟩
  decide

/-- Membership in a counter's key set, as tested by `counterAdd`. -/
theorem keyMem_iff (c : List (String × Nat)) (k : String) :
    (c.any fun p => p.1 = k) = true ↔ k ∈ c.map Prod.fst := by
  rw [List.any_eq_true]
  constructor
  · rintro ⟨p, hp, he⟩
    simp only [decide_eq_true_eq] at he
    exact he ▸ List.mem_map_of_mem Prod.fst hp
  · intro hk
    rcases List.mem_map.mp hk with ⟨p, hp, he⟩
    exact ⟨p, hp, by simp [he]⟩

theorem counterAdd_length_le (c : List (String × Nat)) (k : String) (v : Nat) :
    (counterAdd c k v).length ≤ c.length + 1 := by
  unfold counterAdd
  split
  · simp
  · simp

/-- A word counter never has more entries than the word list. -/
theorem wordCounter_length_le (ws : List String) :
    (wordCounter ws).length ≤ ws.length := by
  suffices h : ∀ c : List (String × Nat),
      (ws.foldl (fun c2 w => counterAdd c2 w 1) c).length ≤ c.length + ws.length by
    simpa [wordCounter] using h []
  induction ws with
  | nil => intro c; simp
  | cons w ws ih =>
    intro c
    simp only [List.foldl_cons, List.length_cons]
    calc (ws.foldl (fun c2 w2 => counterAdd c2 w2 1) (counterAdd c w 1)).length
        ≤ (counterAdd c w 1).length + ws.length := ih _
      _ ≤ (c.length + 1) + ws.length := by
          exact Nat.add_le_add_right (counterAdd_length_le c w 1) _
      _ = c.length + (ws.length + 1) := by omega

/-- Folding `counterAdd` over duplicate-free fresh words appends one
singleton entry per word. -/
theorem foldl_counterAdd_fresh (ws : List String) :
    ∀ c : List (String × Nat), ws.Nodup → (∀ w ∈ ws, w ∉ c.map Prod.fst) →
      ws.foldl (fun c2 w => counterAdd c2 w 1) c = c ++ ws.map fun w => (w, 1) := by
  induction ws with
  | nil => intro c _ _; simp
  | cons w ws ih =>
    intro c hnd hfr
    have hw : w ∉ c.map Prod.fst := hfr w (by simp)
    have hadd : counterAdd c w 1 = c ++ [(w, 1)] := by
      unfold counterAdd
      rw [if_neg fun hcontra => hw ((keyMem_iff c w).mp hcontra)]
    simp only [List.foldl_cons, hadd]
    rw [ih (c ++ [(w, 1)]) (List.Nodup.of_cons hnd) ?_]
    · simp
    · intro w2 hw2
      simp only [List.map_append, List.mem_append, List.map_cons, List.map_nil]
      rintro (h1 | h2)
      · exact hfr w2 (List.mem_cons_of_mem w hw2) h1
      · simp only [List.mem_singleton] at h2
        subst h2
        exact (List.nodup_cons.mp hnd).1 hw2

/-- On a duplicate-free word list the counter is one singleton per word. -/
theorem wordCounter_nodup (ws : List String) (h : ws.Nodup) :
    wordCounter ws = ws.map fun w => (w, 1) := by
  simpa [wordCounter] using foldl_counterAdd_fresh ws [] h (by simp)

theorem roundTo3_nonneg {q : ℚ} (h : 0 ≤ q) : 0 ≤ roundTo3 q := by
  unfold roundTo3 roundTo
  apply div_nonneg _ (by norm_num)
  have h1 : (0:ℚ) ≤ q * 10 ^ 3 + 1/2 := by
    have := mul_nonneg h (by norm_num : (0:ℚ) ≤ 10 ^ 3)
    linarith
  exact_mod_cast Int.floor_nonneg.mpr h1

theorem roundTo3_le_one {q : ℚ} (h : q ≤ 1) : roundTo3 q ≤ 1 := by
  unfold roundTo3 roundTo
  rw [div_le_one (by norm_num)]
  have h1 : q * 10 ^ 3 + 1/2 ≤ 2001/2 := by nlinarith
  have h2 : ⌊q * 10 ^ 3 + 1/2⌋ ≤ ⌊(2001/2 : ℚ)⌋ := Int.floor_le_floor h1
  have h3 : ⌊(2001/2 : ℚ)⌋ = 1000 := by decide
  have h4 : ⌊q * 10 ^ 3 + 1/2⌋ ≤ 1000 := h3 ▸ h2
  calc ((⌊q * 10 ^ 3 + 1/2⌋ : ℤ) : ℚ) ≤ (1000 : ℚ) := by exact_mod_cast h4
    _ = 10 ^ 3 := by norm_num

theorem roundTo3_one : roundTo3 1 = 1 := by
  unfold roundTo3 roundTo
  have h : ⌊(1:ℚ) * 10 ^ 3 + 1/2⌋ = 1000 := by decide
  rw [h]
  norm_num

/-- C6 (counterexample): the empty document's token list has no repeated
tokens, yet the reported TTR is 0.0, not 1.0 — `safe_div(0, 0)` takes the
zero-denominator fallback. -/
theorem C6_counterexample :
    (tokens "").Nodup ∧ TTR_reported "" = 0 ∧ TTR_reported "" ≠ 1 := by
  refine ⟨by decide, by decide, by decide⟩

/-- C6 amended: for every document the reported TTR lies in [0, 1], and it
equals exactly 1.0 when the document's token list is nonempty and has no
repeated tokens.  (The empty document also has no repeated tokens but
reports 0.0.) -/
theorem C6_ttr_bounds (text : String) :
    0 ≤ TTR_reported text ∧ TTR_reported text ≤ 1 ∧
      (tokens text ≠ [] → (tokens text).Nodup → TTR_reported text = 1) := by
  unfold TTR_reported type_token_stats
  dsimp only
  have hVN : (wordCounter (tokens text)).length ≤ (tokens text).length :=
    wordCounter_length_le (tokens text)
  refine ⟨?_, ?_, ?_⟩
  · apply roundTo3_nonneg
    unfold safe_div
    split
    · exact div_nonneg (by positivity) (by positivity)
    · exact le_refl 0
  · apply roundTo3_le_one
    unfold safe_div
    split
    · rename_i hne
      have hpos : (0:ℚ) < ((tokens text).length : ℚ) :=
        lt_of_le_of_ne (by positivity) (Ne.symm hne)
      rw [div_le_one hpos]
      exact_mod_cast hVN
    · norm_num
  · intro hne hnd
    have hN : (tokens text).length ≠ 0 := fun h0 => hne (List.length_eq_zero.mp h0)
    have hV : (wordCounter (tokens text)).length = (tokens text).length := by
      rw [wordCounter_nodup (tokens text) hnd, List.length_map]
    rw [hV]
    unfold safe_div
    rw [if_pos (by exact_mod_cast hN), div_self (by exact_mod_cast hN)]
    exact roundTo3_one

/-- Witness for C6's amended theorem: "cat dog" has two distinct tokens
and reports TTR exactly 1. -/
theorem C6_ttr_bounds_witness :
    0 ≤ TTR_reported "cat dog" ∧ TTR_reported "cat dog" = 1 :=
  ⟨(C6_ttr_bounds "cat dog").1, (C6_ttr_bounds "cat dog").2.2 (by decide) (by decide)⟩

/-- Inside the window the triangular weight is
`max(0.1, 1 - |p - center| / max(1e-9, halfwidth))`. -/
theorem in_window_inside {p lo hi : ℚ} (h1 : lo ≤ p) (h2 : p ≤ hi) :
    in_window p lo hi =
      max (1/10) (1 - |p - (lo + hi) / 2| / max (1/1000000000) ((hi - lo) / 2)) := by
  unfold in_window
  rw [if_neg (not_or.mpr ⟨not_lt.mpr h1, not_lt.mpr h2⟩)]

/-- C7: the beat position weight is 0.5 outside the window, 1.0 at the
window center, follows the linear decay `max(0.1, 1 - dist/halfwidth)`
inside a non-degenerate window, bottoms out at exactly the 0.1 floor at
both window edges, is strictly positive everywhere, and the sentence's
stored beat score is the rounded `cue_hit_count * (0.6 + 0.4 * weight)`. -/
theorem C7_beat_position_weight (p lo hi : ℚ) :
    (p < lo ∨ hi < p → in_window p lo hi = 1/2) ∧
    (lo ≤ hi → in_window ((lo + hi) / 2) lo hi = 1) ∧
    (lo ≤ p → p ≤ hi → 1/1000000000 ≤ (hi - lo) / 2 →
      in_window p lo hi = max (1/10) (1 - |p - (lo + hi) / 2| / ((hi - lo) / 2))) ∧
    (lo ≤ hi → 1/1000000000 ≤ (hi - lo) / 2 →
      in_window lo lo hi = 1/10 ∧ in_window hi lo hi = 1/10) ∧
    0 < in_window p lo hi ∧
    (∀ (cue_words : List String) (s : String), cue_hits cue_words s ≠ 0 →
      score_for_beat cue_words s p lo hi =
        some (roundTo3 (sentence_beat_score (cue_hits cue_words s) (in_window p lo hi)))) := by
  refine ⟨?_, ?_, ?_, ?_, ?_, ?_⟩
  · intro h
    unfold in_window
    rw [if_pos h]
  · intro hlh
    rw [in_window_inside (by linarith) (by linarith)]
    rw [sub_self, abs_zero, zero_div, sub_zero]
    exact max_eq_right (by norm_num)
  · intro h1 h2 h3
    rw [in_window_inside h1 h2, max_eq_right h3]
  · intro hlh h3
    have hpos : (0:ℚ) < (hi - lo) / 2 := lt_of_lt_of_le (by norm_num) h3
    constructor
    · rw [in_window_inside (le_refl lo) hlh, max_eq_right h3]
      have he : lo - (lo + hi) / 2 = -((hi - lo) / 2) := by ring
      rw [he, abs_neg, abs_of_nonneg (le_of_lt hpos), div_self (ne_of_gt hpos)]
      norm_num
    · rw [in_window_inside hlh (le_refl hi), max_eq_right h3]
      have he : hi - (lo + hi) / 2 = (hi - lo) / 2 := by ring
      rw [he, abs_of_nonneg (le_of_lt hpos), div_self (ne_of_gt hpos)]
      norm_num
  · unfold in_window
    split
    · norm_num
    · exact lt_of_lt_of_le (by norm_num) (le_max_left _ _)
  · intro cue_words s h
    unfold score_for_beat
    rw [if_neg h]

/-- Witness for C7 at the "rising" window [0.2, 0.7]: outside position,
center, an interior position, the left edge, and a scored sentence. -/
theorem C7_beat_position_weight_witness :
    in_window (9/10) (1/5) (7/10) = 1/2 ∧
    in_window ((1/5 + 7/10) / 2) (1/5) (7/10) = 1 ∧
    in_window (3/10) (1/5) (7/10) =
      max (1/10) (1 - |(3:ℚ)/10 - (1/5 + 7/10) / 2| / ((7/10 - 1/5) / 2)) ∧
    in_window (1/5) (1/5) (7/10) = 1/10 ∧
    score_for_beat ["but"] "But then." (1/2) (1/5) (7/10) =
      some (roundTo3 (sentence_beat_score (cue_hits ["but"] "But then.")
        (in_window (1/2) (1/5) (7/10)))) :=
  ⟨(C7_beat_position_weight (9/10) (1/5) (7/10)).1 (Or.inr (by norm_num)),
    (C7_beat_position_weight 0 (1/5) (7/10)).2.1 (by norm_num),
    (C7_beat_position_weight (3/10) (1/5) (7/10)).2.2.1 (by norm_num) (by norm_num) (by norm_num),
    ((C7_beat_position_weight 0 (1/5) (7/10)).2.2.2.1 (by norm_num) (by norm_num)).1,
    (C7_beat_position_weight (1/2) (1/5) (7/10)).2.2.2.2.2 ["but"] "But then." (by decide)⟩

/-- The rolling aggregator of the empty series is empty, for every
window. -/
theorem rolling_nil (w : Nat) : rolling [] w = [] := by
  unfold rolling
  split
  · rfl
  · rfl

/-- C8: on the empty string, `analyze` reports zero sentences, average
valence exactly 0.0, and an empty rolling series for every one of the
eight emotion categories (it is a total function, so no exception). -/
theorem C8_empty_input (w : Nat) (hw : 0 < w) :
    (analyzeArc "" w).summary.sentences = 0 ∧
    (analyzeArc "" w).summary.avg_valence = 0 ∧
    (analyzeArc "" w).val_roll = [] ∧
    (analyzeArc "" w).emo_roll = EMO.map fun kv => (kv.1, ([] : List ℚ)) := by
  have hs : sentences "" = [] := by decide
  unfold analyzeArc
  rw [hs]
  simp [emoSeries, rolling_nil]

/-- Witness for C8 at window 3. -/
theorem C8_empty_input_witness :
    (analyzeArc "" 3).summary.sentences = 0 ∧
    (analyzeArc "" 3).summary.avg_valence = 0 ∧
    (analyzeArc "" 3).val_roll = [] ∧
    (analyzeArc "" 3).emo_roll = EMO.map fun kv => (kv.1, ([] : List ℚ)) :=
  C8_empty_input 3 (by norm_num)

/-- Updating an existing key leaves the counter's key list unchanged. -/
theorem counterAdd_keys_of_mem {c : List (String × Nat)} {k : String}
    (h : k ∈ c.map Prod.fst) (v : Nat) :
    (counterAdd c k v).map Prod.fst = c.map Prod.fst := by
  unfold counterAdd
  rw [if_pos ((keyMem_iff c k).mpr h)]
  rw [List.map_map]
  exact List.map_congr_left fun p _ => by
    simp only [Function.comp_apply]
    split <;> rfl

/-- Inserting a fresh key appends it to the counter's key list. -/
theorem counterAdd_keys_of_not_mem {c : List (String × Nat)} {k : String}
    (h : k ∉ c.map Prod.fst) (v : Nat) :
    (counterAdd c k v).map Prod.fst = c.map Prod.fst ++ [k] := by
  unfold counterAdd
  rw [if_neg fun hc => h ((keyMem_iff c k).mp hc)]
  simp

/-- Folding counter updates whose keys are all already present preserves
the key list. -/
theorem foldl_counterAdd_subset (kvs : List (String × Nat)) :
    ∀ c : List (String × Nat), (∀ kv ∈ kvs, kv.1 ∈ c.map Prod.fst) →
      (kvs.foldl (fun c2 kv => counterAdd c2 kv.1 kv.2) c).map Prod.fst = c.map Prod.fst := by
  induction kvs with
  | nil => intro c _; rfl
  | cons kv kvs ih =>
    intro c h
    have hk : (counterAdd c kv.1 kv.2).map Prod.fst = c.map Prod.fst :=
      counterAdd_keys_of_mem (h kv (by simp)) kv.2
    simp only [List.foldl_cons]
    rw [ih (counterAdd c kv.1 kv.2) fun kv2 h2 => by
      rw [hk]; exact h kv2 (List.mem_cons_of_mem kv h2)]
    exact hk

/-- Folding counter updates with duplicate-free fresh keys appends them in
order to the key list. -/
theorem foldl_counterAdd_keys_fresh (kvs : List (String × Nat)) :
    ∀ c : List (String × Nat), (kvs.map Prod.fst).Nodup →
      (∀ kv ∈ kvs, kv.1 ∉ c.map Prod.fst) →
      (kvs.foldl (fun c2 kv => counterAdd c2 kv.1 kv.2) c).map Prod.fst =
        c.map Prod.fst ++ kvs.map Prod.fst := by
  induction kvs with
  | nil => intro c _ _; simp
  | cons kv kvs ih =>
    intro c hnd hfr
    have hk : (counterAdd c kv.1 kv.2).map Prod.fst = c.map Prod.fst ++ [kv.1] :=
      counterAdd_keys_of_not_mem (hfr kv (by simp)) kv.2
    simp only [List.foldl_cons, List.map_cons]
    rw [ih (counterAdd c kv.1 kv.2) (by simpa using (List.nodup_cons.mp (by simpa using hnd)).2) ?_]
    · rw [hk]
      simp
    · intro kv2 h2
      rw [hk]
      simp only [List.mem_append, List.mem_singleton]
      rintro (h1 | h3)
      · exact hfr kv2 (List.mem_cons_of_mem kv h2) h1
      · have hne2 : kv2.1 ∈ kvs.map Prod.fst := List.mem_map_of_mem Prod.fst h2
        rw [h3] at hne2
        exact (List.nodup_cons.mp (by simpa using hnd)).1 hne2

/-- Every sentence score carries exactly the eight `EMO` keys in order. -/
theorem score_sentence_keys (i : Nat) (s : String) :
    (score_sentence i s).emotions.map Prod.fst = EMO.map Prod.fst := by
  simp [score_sentence, List.map_map, Function.comp_def]

theorem EMO_keys_nodup : (EMO.map Prod.fst).Nodup := by decide

/-- With at least one sentence the emotion-totals counter has exactly the
eight `EMO` keys: the first sentence materialises every key (each
`c[k] += v` inserts the key even at `v = 0`), later sentences only update
them. -/
theorem emoTotals_keys (scores : List SentenceScore)
    (h : ∀ sc ∈ scores, sc.emotions.map Prod.fst = EMO.map Prod.fst)
    (hne : scores ≠ []) :
    (emoTotals scores).map Prod.fst = EMO.map Prod.fst := by
  match scores with
  | [] => exact absurd rfl hne
  | sc :: rest =>
    unfold emoTotals
    simp only [List.foldl_cons]
    have hsc := h sc (by simp)
    have h1 : ((sc.emotions.foldl (fun c2 kv => counterAdd c2 kv.1 kv.2)
        ([] : List (String × Nat)))).map Prod.fst = EMO.map Prod.fst := by
      have := foldl_counterAdd_keys_fresh sc.emotions []
        (by rw [hsc]; exact EMO_keys_nodup) (by simp)
      rw [this, hsc]
      rfl
    have h2 : ∀ (r : List SentenceScore) (c : List (String × Nat)),
        (∀ sc2 ∈ r, sc2.emotions.map Prod.fst = EMO.map Prod.fst) →
        c.map Prod.fst = EMO.map Prod.fst →
        (r.foldl (fun c2 sc2 => sc2.emotions.foldl
            (fun c3 kv => counterAdd c3 kv.1 kv.2) c2) c).map Prod.fst =
          EMO.map Prod.fst := by
      intro r
      induction r with
      | nil => intro c _ hc; exact hc
      | cons sc2 rest2 ih2 =>
        intro c hall hc
        simp only [List.foldl_cons]
        apply ih2 _ fun x hx => hall x (List.mem_cons_of_mem sc2 hx)
        rw [foldl_counterAdd_subset sc2.emotions c fun kv hkv => by
          rw [hc, ← hall sc2 (by simp)]
          exact List.mem_map_of_mem Prod.fst hkv]
        exact hc
    exact h2 rest _ (fun x hx => h x (List.mem_cons_of_mem sc hx)) h1

theorem insertByCount_length (x : String × Nat) (l : List (String × Nat)) :
    (insertByCount x l).length = l.length + 1 := by
  induction l with
  | nil => rfl
  | cons y ys ih =>
    unfold insertByCount
    split
    · simp
    · simp [ih]

theorem sortByCountDesc_length (l : List (String × Nat)) :
    (sortByCountDesc l).length = l.length := by
  unfold sortByCountDesc
  induction l with
  | nil => rfl
  | cons x xs ih =>
    simp only [List.foldr_cons, List.length_cons]
    rw [insertByCount_length, ih]

theorem mem_insertByCount {y x : String × Nat} :
    ∀ {l : List (String × Nat)}, y ∈ insertByCount x l → y = x ∨ y ∈ l := by
  intro l
  induction l with
  | nil => intro h; simpa [insertByCount] using h
  | cons z zs ih =>
    intro h
    unfold insertByCount at h
    split at h
    · rcases List.mem_cons.mp h with h1 | h2
      · exact Or.inl h1
      · exact Or.inr h2
    · rcases List.mem_cons.mp h with h1 | h2
      · exact Or.inr (by simp [h1])
      · rcases ih h2 with h3 | h4
        · exact Or.inl h3
        · exact Or.inr (List.mem_cons_of_mem z h4)

theorem mem_sortByCountDesc {y : String × Nat} :
    ∀ {l : List (String × Nat)}, y ∈ sortByCountDesc l → y ∈ l := by
  intro l
  induction l with
  | nil => intro h; simpa [sortByCountDesc] using h
  | cons x xs ih =>
    intro h
    rcases mem_insertByCount (by simpa [sortByCountDesc] using h) with h1 | h2
    · simp [h1]
    · exact List.mem_cons_of_mem x (ih (by simpa [sortByCountDesc] using h2))

/-- C9: whenever the input yields at least one sentence, `top_emotions`
holds exactly 3 names drawn from the fixed eight categories — even when
every emotion count is zero, because the first sentence's score inserts
all eight keys into the totals counter with (possibly zero) counts. -/
theorem C9_top_emotions (text : String) (w : Nat) (h : sentences text ≠ []) :
    (analyzeArc text w).summary.top_emotions.length = 3 ∧
    ∀ e ∈ (analyzeArc text w).summary.top_emotions, e ∈ EMO.map Prod.fst := by
  unfold analyzeArc
  dsimp only
  have hscne : ((sentences text).enum.map fun p => score_sentence p.1 p.2) ≠ [] := by
    intro h0
    apply h
    have hlen := congrArg List.length h0
    simp only [List.length_map, List.enum_length, List.length_nil] at hlen
    exact List.length_eq_zero.mp hlen
  have hkeys : (emoTotals ((sentences text).enum.map fun p =>
      score_sentence p.1 p.2)).map Prod.fst = EMO.map Prod.fst := by
    apply emoTotals_keys _ _ hscne
    intro sc hsc
    rcases List.mem_map.mp hsc with ⟨p, _, hp⟩
    rw [← hp]
    exact score_sentence_keys p.1 p.2
  have hlen8 : (emoTotals ((sentences text).enum.map fun p =>
      score_sentence p.1 p.2)).length = 8 := by
    have hl := congrArg List.length hkeys
    simpa using hl
  constructor
  · simp [most_common, sortByCountDesc_length, hlen8]
  · intro e he
    simp only [most_common] at he
    rcases List.mem_map.mp he with ⟨pair, hpair, hpe⟩
    have h1 : pair ∈ sortByCountDesc (emoTotals ((sentences text).enum.map fun p =>
        score_sentence p.1 p.2)) := List.mem_of_mem_take hpair
    have h2 := mem_sortByCountDesc h1
    rw [← hpe, ← hkeys]
    exact List.mem_map_of_mem Prod.fst h2

/-- Witness for C9 at a one-sentence text with no lexicon hits at all:
three emotion names are still reported. -/
theorem C9_top_emotions_witness :
    (analyzeArc "Hello there." 5).summary.top_emotions.length = 3 :=
  (C9_top_emotions "Hello there." 5 (by decide)).1

/-! ### ASCII facts about `Char.toLower`, needed for the canon-alias
normalisation of `load_canon` -/

theorem char_toNat_ofNat (n : Nat) (h : n < 55296) : (Char.ofNat n).toNat = n := by
  unfold Char.ofNat
  rw [dif_pos (Or.inl h)]
  rfl

theorem toLower_toNat_of_upper {c : Char} (h : 65 ≤ c.toNat ∧ c.toNat ≤ 90) :
    c.toLower.toNat = c.toNat + 32 := by
  unfold Char.toLower
  rw [if_pos h]
  exact char_toNat_ofNat _ (by omega)

theorem toLower_eq_of_not_upper {c : Char} (h : ¬(65 ≤ c.toNat ∧ c.toNat ≤ 90)) :
    c.toLower = c := by
  unfold Char.toLower
  rw [if_neg h]

theorem toLower_idem (c : Char) : c.toLower.toLower = c.toLower := by
  by_cases h : 65 ≤ c.toNat ∧ c.toNat ≤ 90
  · have h2 := toLower_toNat_of_upper h
    exact toLower_eq_of_not_upper (by omega)
  · rw [toLower_eq_of_not_upper h, toLower_eq_of_not_upper h]

theorem isUpper_toNat {c : Char} (h : c.isUpper = true) :
    65 ≤ c.toNat ∧ c.toNat ≤ 90 := by
  simp only [Char.isUpper, Bool.and_eq_true, decide_eq_true_eq, ge_iff_le] at h
  obtain ⟨h1, h2⟩ := h
  rw [UInt32.le_def, BitVec.le_def] at h1 h2
  exact ⟨h1, h2⟩

theorem toLower_ne_of_upper {c : Char} (h : c.isUpper = true) : c.toLower ≠ c := by
  intro he
  have h1 := isUpper_toNat h
  have h2 := toLower_toNat_of_upper h1
  rw [he] at h2
  omega

/-- A pointwise-fixed `map` fixes every member. -/
theorem map_fix_of_eq_self {α : Type} {f : α → α} :
    ∀ {l : List α}, l.map f = l → ∀ a ∈ l, f a = a := by
  intro l
  induction l with
  | nil => intro _ a ha; cases ha
  | cons x xs ih =>
    intro he a ha
    rw [List.map_cons, List.cons.injEq] at he
    rcases List.mem_cons.mp ha with h1 | h2
    · rw [h1]; exact he.1
    · exact ih he.2 a h2

/-- Lower-casing a string containing an ASCII uppercase letter changes
it. -/
theorem lower_ne_of_upper {s : String} (h : ∃ c ∈ s.data, c.isUpper = true) :
    lower s ≠ s := by
  intro he
  rcases h with ⟨c, hc, hup⟩
  have hd : s.data.map Char.toLower = s.data := congrArg String.data he
  exact toLower_ne_of_upper hup (map_fix_of_eq_self hd c hc)

theorem lower_idem (s : String) : lower (lower s) = lower s := by
  unfold lower
  simp only [List.map_map]
  exact congrArg String.mk (List.map_congr_left fun c _ => toLower_idem c)

theorem isWs_false_of_toNat {d : Char} (h : 97 ≤ d.toNat) : isWs d = false := by
  simp only [isWs, Bool.or_eq_false_iff, decide_eq_false_iff_not]
  refine ⟨⟨⟨⟨⟨?_, ?_⟩, ?_⟩, ?_⟩, ?_⟩, ?_⟩ <;>
    · intro he
      subst he
      exact absurd h (by decide)

theorem isWs_toLower {c : Char} (h : isWs c = false) : isWs c.toLower = false := by
  by_cases hu : 65 ≤ c.toNat ∧ c.toNat ≤ 90
  · exact isWs_false_of_toNat (by rw [toLower_toNat_of_upper hu]; omega)
  · rw [toLower_eq_of_not_upper hu]
    exact h

theorem dropWhile_eq_self_of_none {l : List Char} (h : ∀ c ∈ l, isWs c = false) :
    l.dropWhile isWs = l := by
  cases l with
  | nil => rfl
  | cons c cs =>
    rw [List.dropWhile_cons_of_neg]
    simp [h c (by simp)]

theorem stripChars_eq_self {l : List Char} (h : ∀ c ∈ l, isWs c = false) :
    stripChars l = l := by
  unfold stripChars
  rw [dropWhile_eq_self_of_none h,
    dropWhile_eq_self_of_none fun c hc => h c (List.mem_reverse.mp hc),
    List.reverse_reverse]

theorem splitOnComma_no_comma :
    ∀ (cs acc : List Char), (∀ c ∈ cs, c ≠ ',') →
      splitOnComma cs acc = [acc.reverse ++ cs] := by
  intro cs
  induction cs with
  | nil => intro acc _; simp [splitOnComma]
  | cons c cs2 ih =>
    intro acc h
    unfold splitOnComma
    rw [if_neg (by simpa using h c (by simp))]
    rw [ih (c :: acc) fun c2 hc2 => h c2 (List.mem_cons_of_mem c hc2)]
    simp

theorem string_mk_data (s : String) : String.mk s.data = s := rfl

/-- `load_canon` on a single inline name with an uppercase letter builds
one entry whose alias set is the name plus its distinct lower-cased
spelling. -/
theorem load_canon_single (name : String)
    (hne : name ≠ "")
    (hws : ∀ c ∈ name.data, isWs c = false)
    (hcm : ∀ c ∈ name.data, c ≠ ',')
    (hlow : lower name ≠ name) :
    load_canon name = [(name, [name, lower name])] := by
  unfold load_canon
  rw [splitOnComma_no_comma name.data [] hcm]
  have hstrip : strip (String.mk name.data) = name := by
    rw [string_mk_data]
    unfold strip
    rw [stripChars_eq_self hws, string_mk_data]
  simp only [List.reverse_nil, List.nil_append, List.map_cons, List.map_nil, hstrip]
  rw [List.filter_cons_of_pos (by simpa using hne)]
  simp only [List.filter_nil, List.foldl_cons, List.foldl_nil]
  have hadd : canonAdd [] name name = [(name, [name])] := by
    unfold canonAdd
    rw [if_neg (by simp)]
    rfl
  rw [hadd]
  simp only [List.map_cons, List.map_nil, List.cons_append, List.nil_append]
  have hded : dedupKeepFirst [name, lower name] = [name, lower name] := by
    have h2 : ([name].contains (lower name)) = false := by
      rw [List.contains_cons]
      simp only [List.contains_nil, Bool.or_false]
      rw [beq_eq_false_iff_ne]
      exact hlow
    show setAdd (setAdd [] name) (lower name) = [name, lower name]
    rw [show setAdd [] name = [name] from rfl]
    unfold setAdd
    rw [h2]
    simp
  rw [hded]

/-- C10: a single-word canonical name with an uppercase letter gains its
lower-cased spelling as a second distinct alias in `load_canon`'s
normalisation step, so `analyze_continuity` counts every case-insensitive
token occurrence of the name once per alias — the canonical total is twice
the occurrence count (and the entry is simply absent when the count is
zero). -/
theorem C10_lowercase_alias (name text : String)
    (hne : name ≠ "")
    (hws : ∀ c ∈ name.data, isWs c = false)
    (hcm : ∀ c ∈ name.data, c ≠ ',')
    (hup : ∃ c ∈ name.data, c.isUpper = true) :
    lookupCount (canonical_matches text (load_canon name)) name =
      2 * ((word_tokens (String.mk (normNewlines text.data))).map lower).count
        (lower name) := by
  have hlow : lower name ≠ name := lower_ne_of_upper hup
  rw [load_canon_single name hne hws hcm hlow]
  unfold canonical_matches
  have hlne : lower name ≠ "" := by
    intro he
    apply hne
    have hd : name.data.map Char.toLower = [] := congrArg String.data he
    have hnil : name.data = [] := List.map_eq_nil.mp hd
    cases name
    simp_all
  have hlws : ∀ c ∈ (lower name).data, isWs c = false := by
    intro c hc
    rcases List.mem_map.mp hc with ⟨c0, hc0, he⟩
    rw [← he]
    exact isWs_toLower (hws c0 hc0)
  have hsp : ∀ (s : String), (∀ c ∈ s.data, isWs c = false) →
      (strip s).data.contains ' ' = false := by
    intro s hs
    have hstr : strip s = s := by
      unfold strip
      rw [stripChars_eq_self hs, string_mk_data]
    rw [hstr, Bool.eq_false_iff]
    intro hcon
    have hmem : ' ' ∈ s.data := List.elem_iff.mp hcon
    have := hs ' ' hmem
    simp [isWs] at this
  have hac1 : ∀ (tn : String) (lows : List String),
      alias_count tn lows name = lows.count (lower name) := by
    intro tn lows
    unfold alias_count
    rw [if_neg (ne_true_of_eq_false (hsp name hws))]
  have hac2 : ∀ (tn : String) (lows : List String),
      alias_count tn lows (lower name) = lows.count (lower name) := by
    intro tn lows
    unfold alias_count
    rw [if_neg (ne_true_of_eq_false (hsp (lower name) hlws)), lower_idem]
  have hfil : (([name, lower name]).filter fun a => a ≠ "") = [name, lower name] := by
    rw [List.filter_cons_of_pos (by simpa using hne),
      List.filter_cons_of_pos (by simpa using hlne)]
    rfl
  simp only [List.map_cons, List.map_nil, hfil, List.sum_cons, List.sum_nil,
    hac1, hac2, Nat.add_zero]
  generalize ((word_tokens (String.mk (normNewlines text.data))).map lower).count
    (lower name) = cnt
  have hsum : cnt + cnt = 2 * cnt := by omega
  rw [hsum]
  rcases Nat.eq_zero_or_pos cnt with h0 | hpos
  · subst h0
    rw [List.filter_cons_of_neg (by simp)]
    rfl
  · rw [List.filter_cons_of_pos (by simp only [decide_eq_true_eq]; omega)]
    simp [lookupCount]

/-- Witness for C10: canon name "Thea", text with three case-variant
occurrences; the canonical total is 6. -/
theorem C10_lowercase_alias_witness :
    lookupCount (canonical_matches "Thea saw thea. THEA won." (load_canon "Thea"))
      "Thea" = 6 := by
  have h := C10_lowercase_alias "Thea" "Thea saw thea. THEA won."
    (by decide) (by decide) (by decide) ⟨'T', by decide, by decide⟩
  rw [h]
  decide

/-! ### The rolling aggregator's fold invariant (for C3) -/

/-- Appending an element does not change the trailing means at earlier
positions. -/
theorem meanTail_prefix (t : List ℚ) (v : ℚ) (w i : Nat) (h : i < t.length) :
    meanTail (t ++ [v]) w i = meanTail t w i := by
  unfold meanTail
  rw [List.take_append_of_le_length (by omega)]

/-- The trailing mean at the appended position is the mean of the last
`w` elements of the extended list. -/
theorem meanTail_last (t : List ℚ) (v : ℚ) (w : Nat) :
    meanTail (t ++ [v]) w t.length =
      ((t ++ [v]).drop (t.length + 1 - w)).sum /
        (((t ++ [v]).drop (t.length + 1 - w)).length : ℚ) := by
  unfold meanTail
  have hl : (t ++ [v]).length = t.length + 1 := by simp
  rw [show (t ++ [v]).take (t.length + 1) = t ++ [v] by rw [← hl, List.take_length]]

/-- State of `rolling`'s loop after processing a prefix `s`: the deque
holds the last `min(w, |s|)` values, the running sum is their sum, and the
output so far is the trailing mean at every position of `s`. -/
theorem rolling_foldl_spec (w : Nat) (hw : 1 ≤ w) :
    ∀ s : List ℚ, s.foldl (rollStep w) ([], 0, []) =
      (s.drop (s.length - w), (s.drop (s.length - w)).sum,
        (List.range s.length).map (meanTail s w)) := by
  intro s
  induction s using List.reverseRecOn with
  | nil => simp
  | append_singleton t v ih =>
    rw [List.foldl_append, ih, List.foldl_cons, List.foldl_nil]
    unfold rollStep
    dsimp only
    have hdlen : (t.drop (t.length - w)).length = t.length - (t.length - w) :=
      List.length_drop _ _
    have houtpre : (List.range t.length).map (meanTail (t ++ [v]) w) =
        (List.range t.length).map (meanTail t w) :=
      List.map_congr_left fun i hi =>
        meanTail_prefix t v w i (List.mem_range.mp hi)
    have hlv : (t ++ [v]).length = t.length + 1 := by simp
    by_cases hcase : t.length < w
    · have h0 : t.length - w = 0 := by omega
      have h0' : (t ++ [v]).length - w = 0 := by simp; omega
      rw [if_neg (by simp only [List.length_append, List.length_singleton]; omega)]
      rw [h0', h0, List.drop_zero, List.drop_zero]
      refine Prod.ext ?_ (Prod.ext ?_ ?_)
      · rfl
      · simp
      · dsimp only
        rw [hlv, List.range_succ, List.map_append, List.map_cons, List.map_nil,
          houtpre, meanTail_last t v w]
        have h0'' : t.length + 1 - w = 0 := by omega
        rw [h0'', List.drop_zero]
        simp [List.sum_append]
    · have hwle : w ≤ t.length := by omega
      have hmin : t.length - (t.length - w) = w := by omega
      set A := t.drop (t.length - w) with hA
      have hAlen : A.length = w := by rw [hA, hdlen, hmin]
      have hAne : A ≠ [] := by
        intro he
        rw [he] at hAlen
        simp at hAlen
        omega
      obtain ⟨a0, A2, hA2⟩ := List.exists_cons_of_ne_nil hAne
      have htail : (A ++ [v]).tail = A2 ++ [v] := by rw [hA2]; rfl
      have hhead : (A ++ [v]).headD 0 = a0 := by rw [hA2]; rfl
      have hdropped : (t ++ [v]).drop ((t ++ [v]).length - w) = A2 ++ [v] := by
        have h1 : (t ++ [v]).length - w = (t.length - w) + 1 := by simp; omega
        rw [h1, List.drop_append_of_le_length (by omega), ← List.tail_drop, ← hA, hA2]
        rfl
      rw [if_pos (by simp only [List.length_append, List.length_singleton, hAlen]; omega)]
      rw [hdropped, htail, hhead]
      refine Prod.ext rfl (Prod.ext ?_ ?_)
      · dsimp only
        rw [hA2]
        simp only [List.sum_cons, List.sum_append, List.sum_cons, List.sum_nil]
        ring
      · dsimp only
        rw [hlv, List.range_succ, List.map_append, List.map_cons, List.map_nil,
          houtpre, meanTail_last t v w]
        have h1 : t.length + 1 - w = (t.length - w) + 1 := by omega
        have hseg : (t ++ [v]).drop (t.length + 1 - w) = A2 ++ [v] := by
          rw [h1, List.drop_append_of_le_length (by omega), ← List.tail_drop, ← hA, hA2]
          rfl
        rw [hseg, hA2]
        congr 2
        simp only [List.sum_cons, List.sum_append, List.sum_nil]
        ring

/-- C3: for every series and every window `w ≥ 1`, `rolling` returns a
series of the same length whose position `i` is the arithmetic mean of the
last `min(w, i+1)` input values ending at `i` (`meanTail` divides the sum
of that trailing segment by its length, which is `min(w, i+1)`). -/
theorem C3_rolling_mean (s : List ℚ) (w : Nat) (hw : 1 ≤ w) :
    rolling s w = (List.range s.length).map (meanTail s w) ∧
    (rolling s w).length = s.length := by
  have hmain : rolling s w = (List.range s.length).map (meanTail s w) := by
    by_cases h1 : w ≤ 1
    · have hw1 : w = 1 := le_antisymm h1 hw
      subst hw1
      unfold rolling
      rw [if_pos (le_refl 1)]
      apply List.ext_getElem (by simp)
      intro i hi hi2
      simp only [List.getElem_map, List.getElem_range]
      unfold meanTail
      rw [List.drop_take]
      simp only [Nat.add_sub_cancel]
      have hone : i + 1 - i = 1 := by omega
      rw [hone]
      rw [List.drop_eq_getElem_cons hi]
      simp only [List.take_succ_cons, List.take_zero, List.sum_cons, List.sum_nil,
        List.length_cons, List.length_nil, Nat.zero_add, Nat.cast_one, add_zero, div_one]
    · unfold rolling
      rw [if_neg h1, rolling_foldl_spec w hw s]
  exact ⟨hmain, by rw [hmain]; simp⟩

/-- Witness for C3 at the series `[1, 2, 4]` with window 2, including its
concrete value `[1, 3/2, 3]`. -/
theorem C3_rolling_mean_witness :
    (rolling [1, 2, 4] 2 =
        (List.range (([1, 2, 4] : List ℚ)).length).map (meanTail [1, 2, 4] 2) ∧
      (rolling [1, 2, 4] 2).length = (([1, 2, 4] : List ℚ)).length) ∧
    rolling [1, 2, 4] 2 = [1, 3/2, 3] :=
  ⟨C3_rolling_mean [1, 2, 4] 2 (by norm_num), by decide⟩

end FfaLab
